import Mathlib

/-!
Verification of the graph library: a shallow embedding of `graph.py` and
`challenges.py` (classes `Vertex`/`Graph` and the grid clients) in Lean 4.

The Python `Graph` keeps an insertion-ordered dictionary from vertex id to a
`Vertex`, and every `Vertex` keeps an insertion-ordered dictionary from
neighbor id to the neighbor object.  We embed this state as an association
list from id to the list of neighbor ids in insertion order, together with
the `is_directed` flag fixed at construction.  Vertex ids are modelled as
naturals (the repository only ever uses integer ids).

Python errors are embedded explicitly: `KeyError` raised by `bfs_traversal`
and `find_shortest_path` on absent ids, `IndexError` raised by indexing the
first element of an empty vertex list, and `ValueError` raised by
`topological_sort` on a cyclic graph.  Loops whose termination depends on the
visited-set bookkeeping take an explicit fuel argument, always instantiated
with more fuel than the loop can consume (proved where a claim needs it).
-/

/-- Errors the Python code can raise on the paths the claims exercise. -/
inductive PyErr : Type
  | keyError
  | indexError
  | valueError
deriving DecidableEq, Repr

/-- Python dict insertion with a set-like key view: setting a key that is
already present keeps its position and list of keys unchanged; a fresh key is
appended at the end.  This is `Vertex.add_neighbor`s effect on the key order
of `__neighbors_dict`. -/
def insertKey (xs : List Nat) (x : Nat) : List Nat :=
  if x ∈ xs then xs else xs ++ [x]

/-- Python dict assignment `d[k] = v` on an association list: an existing key
keeps its position and gets the new value, a fresh key is appended. -/
def dictSet (m : List (Nat × List Nat)) (k : Nat) (v : List Nat) :
    List (Nat × List Nat) :=
  match m with
  | [] => [(k, v)]
  | (k', v') :: rest =>
    if k' = k then (k, v) :: rest else (k', v') :: dictSet rest k v

/-- Python dict lookup `d.get(k)` on an association list. -/
def alookup {α : Type} (m : List (Nat × α)) (k : Nat) : Option α :=
  match m with
  | [] => none
  | (k', v) :: rest => if k' = k then some v else alookup rest k

/-- `Vertex.add_neighbor` lifted to the graph state: update the neighbor
dictionary of the first entry for `u` with the new neighbor id `v`. -/
def addNbr (m : List (Nat × List Nat)) (u v : Nat) : List (Nat × List Nat) :=
  match m with
  | [] => []
  | (k, ns) :: rest =>
    if k = u then (k, insertKey ns v) :: rest else (k, ns) :: addNbr rest u v

/-- The state of a Python `Graph`: `vmap` is `__vertex_dict` (insertion
ordered, each vertex with its insertion-ordered neighbor id list), `directed`
is `__is_directed`. -/
structure Graph : Type where
  vmap : List (Nat × List Nat)
  directed : Bool
deriving DecidableEq, Repr

/-- `Graph.__init__`: empty vertex dictionary with a fixed directedness. -/
def mkGraph (d : Bool) : Graph := ⟨[], d⟩

/-- The ids of `get_vertices()`, in insertion order. -/
def Graph.keys (g : Graph) : List Nat := g.vmap.map Prod.fst

/-- `Graph.contains_id`. -/
def Graph.containsId (g : Graph) (i : Nat) : Bool := (alookup g.vmap i).isSome

/-- `Vertex.get_neighbors` of the vertex with id `i`, as the list of neighbor
ids in insertion order; `[]` if `i` is absent. -/
def Graph.neighborIds (g : Graph) (i : Nat) : List Nat :=
  (alookup g.vmap i).getD []

/-- `Graph.add_vertex`: store a fresh `Vertex` under `vertex_id`, overwriting
(and thereby emptying the neighbor dictionary of) any existing vertex with
that id. -/
def Graph.add_vertex (g : Graph) (i : Nat) : Graph :=
  { g with vmap := dictSet g.vmap i [] }

/-- The `if self.get_vertex(id) is None: self.add_vertex(id)` step at the top
of `add_edge`. -/
def ensureVertex (g : Graph) (i : Nat) : Graph :=
  if g.containsId i then g else g.add_vertex i

/-- The `self.__vertex_dict[id1].add_neighbor(self.__vertex_dict[id2])` step
of `add_edge`. -/
def recordEdge (g : Graph) (u v : Nat) : Graph :=
  { g with vmap := addNbr g.vmap u v }

/-- `Graph.add_edge`: create missing endpoints, record `u → v`, and also
record `v → u` when the graph is undirected. -/
def Graph.add_edge (g : Graph) (u v : Nat) : Graph :=
  if (recordEdge (ensureVertex (ensureVertex g u) v) u v).directed then
    recordEdge (ensureVertex (ensureVertex g u) v) u v
  else
    recordEdge (recordEdge (ensureVertex (ensureVertex g u) v) u v) v u

/-- The BFS inner loop over one vertex's neighbor list, shared by
`bfs_traversal` and `get_connected`: enqueue each not-yet-seen neighbor and
mark it seen.  Returns the updated queue and seen set (as an insertion-order
list). -/
def scanNbrs : List Nat → List Nat → List Nat → List Nat × List Nat
  | [], q, vis => (q, vis)
  | w :: ws, q, vis =>
    if w ∈ vis then scanNbrs ws q vis
    else scanNbrs ws (q ++ [w]) (vis ++ [w])

/-- The `while queue:` loop of `get_connected`: pop the head, enqueue its
unseen neighbors, and finally return the visited set. -/
def bfsLoop (g : Graph) : Nat → List Nat → List Nat → List Nat
  | 0, _, vis => vis
  | fuel + 1, q, vis =>
    match q with
    | [] => vis
    | v :: qs =>
      let s := scanNbrs (g.neighborIds v) qs vis
      bfsLoop g fuel s.1 s.2

/-- `Graph.get_connected`: BFS flood fill from `start_id`, returning the set
of reached ids.  (The Python `visit` callback adds exactly these ids to the
caller's visited set, which `find_connected_components` below reproduces.) -/
def Graph.get_connected (g : Graph) (s : Nat) : List Nat :=
  bfsLoop g (g.vmap.length + 1) [s] [s]

/-- The outer loop of `find_connected_components` over `get_vertices()`. -/
def fccLoop (g : Graph) : List Nat → List Nat → List (List Nat) → List (List Nat)
  | [], _, cc => cc
  | v :: vs, visited, cc =>
    if v ∈ visited then fccLoop g vs visited cc
    else
      let comp := g.get_connected v
      fccLoop g vs (comp.foldl insertKey visited) (cc ++ [comp])

/-- `Graph.find_connected_components`. -/
def Graph.find_connected_components (g : Graph) : List (List Nat) :=
  fccLoop g g.keys [] []

/-- The `while queue:` loop of `bfs_traversal`, collecting the ids in the
order they are processed (printed). -/
def bfsTravLoop (g : Graph) : Nat → List Nat → List Nat → List Nat → List Nat
  | 0, _, _, out => out
  | fuel + 1, q, seen, out =>
    match q with
    | [] => out
    | v :: qs =>
      let s := scanNbrs (g.neighborIds v) qs seen
      bfsTravLoop g fuel s.1 s.2 (out ++ [v])

/-- `Graph.bfs_traversal`: `KeyError` when the start id is absent, otherwise
process every reachable vertex once in BFS order. -/
def Graph.bfs_traversal (g : Graph) (s : Nat) : Except PyErr (List Nat) :=
  if !g.containsId s then .error .keyError
  else .ok (bfsTravLoop g (g.vmap.length + 1) [s] [s] [])

/-- The neighbor loop of `find_shortest_path`: for each neighbor without a
recorded path, record `(path to v) + [w]` and enqueue `w`. -/
def fspScan (v : Nat) :
    List Nat → List Nat → List (Nat × List Nat) → List Nat × List (Nat × List Nat)
  | [], q, m => (q, m)
  | w :: ws, q, m =>
    if (alookup m w).isSome then fspScan v ws q m
    else
      let pv := (alookup m v).getD []
      fspScan v ws (q ++ [w]) (m ++ [(w, pv ++ [w])])

/-- The `while queue:` loop of `find_shortest_path`, with the early `break`
when the dequeued id equals the target. -/
def fspLoop (g : Graph) (t : Nat) :
    Nat → List Nat → List (Nat × List Nat) → List (Nat × List Nat)
  | 0, _, m => m
  | fuel + 1, q, m =>
    match q with
    | [] => m
    | v :: qs =>
      if v = t then m
      else
        let s := fspScan v (g.neighborIds v) qs m
        fspLoop g t fuel s.1 s.2

/-- `Graph.find_shortest_path`: `KeyError` when either id is absent; `none`
models the Python `None` result when the target was never reached. -/
def Graph.find_shortest_path (g : Graph) (s t : Nat) :
    Except PyErr (Option (List Nat)) :=
  if !g.containsId s || !g.containsId t then .error .keyError
  else .ok (alookup (fspLoop g t (g.vmap.length + 1) [s] [(s, [s])]) t)

/-- The neighbor loop of `is_bipartite`: compare the stored color of each
neighbor with the current vertex's stored color (Python compares the two
`dict.get` results, `None` included), return `none` on a clash, otherwise
color and enqueue each uncolored neighbor with `next_color`. -/
def bipScan (v : Nat) (next : Bool) :
    List Nat → List Nat → List (Nat × Bool) → Option (List Nat × List (Nat × Bool))
  | [], q, vis => some (q, vis)
  | w :: ws, q, vis =>
    let wcol := alookup vis w
    let vcol := alookup vis v
    if wcol = vcol then none
    else if wcol = none then bipScan v next ws (q ++ [w]) (vis ++ [(w, next)])
    else bipScan v next ws q vis

/-- The `while queue:` loop of `is_bipartite`: flip `next_color`, pop, and
scan the popped vertex's neighbors. -/
def bipLoop (g : Graph) : Nat → Bool → List Nat → List (Nat × Bool) → Bool
  | 0, _, _, _ => true
  | fuel + 1, next, q, vis =>
    match q with
    | [] => true
    | v :: qs =>
      match bipScan v (!next) (g.neighborIds v) qs vis with
      | none => false
      | some s => bipLoop g fuel (!next) s.1 s.2

/-- `Graph.is_bipartite`: index the first vertex (`IndexError` on an empty
graph), seed it with color `r` (modelled `true`), and run the loop. -/
def Graph.is_bipartite (g : Graph) : Except PyErr Bool :=
  match g.keys with
  | [] => .error .indexError
  | s :: _ => .ok (bipLoop g (g.vmap.length + 1) true [s] [(s, true)])

/-- `Graph.contains_dfs`: add the current id to `path`, then look at the
first neighbor only — report a cycle if it is already on `path`, otherwise
recurse into it unconditionally (the `return` inside the `for` loop makes the
statement after it dead code and skips all sibling neighbors).  A vertex with
no neighbors returns `False`. -/
def Graph.contains_dfs (g : Graph) : Nat → Nat → List Nat → Bool
  | 0, _, _ => false
  | fuel + 1, v, path =>
    let path1 := insertKey path v
    match g.neighborIds v with
    | [] => false
    | w :: _ =>
      if w ∈ path1 then true
      else g.contains_dfs fuel w (insertKey path1 w)

/-- `Graph.contains_cycle`: run `contains_dfs` from the first vertex
(`IndexError` on an empty graph). -/
def Graph.contains_cycle (g : Graph) : Except PyErr Bool :=
  match g.keys with
  | [] => .error .indexError
  | s :: _ => .ok (g.contains_dfs (g.vmap.length + 1) s [])

/-- The neighbor loop of `topo_dfs`: recurse into each not-yet-visited
neighbor, threading the visited set. -/
def topoGo (g : Graph) : Nat → List Nat → List Nat → List Nat
  | _, [], vis => vis
  | 0, _ :: _, vis => vis
  | fuel + 1, w :: ws, vis =>
    if w ∈ vis then topoGo g (fuel + 1) ws vis
    else topoGo g (fuel + 1) ws (topoGo g fuel (g.neighborIds w) (insertKey vis w))
termination_by fuel ws _ => (fuel, ws.length)

/-- `Graph.topo_dfs`: mark the start id visited and recurse into unvisited
neighbors.  Its only effect is on the visited set, which `topological_sort`
never reads for its output. -/
def Graph.topo_dfs (g : Graph) (v : Nat) (vis : List Nat) : List Nat :=
  topoGo g (g.vmap.length + 1) (g.neighborIds v) (insertKey vis v)

/-- The final `deque` rotation of `topological_sort`: pop the last id and
push it to the front. -/
def rotateLast (l : List Nat) : List Nat :=
  match l.getLast? with
  | none => l
  | some x => x :: l.dropLast

/-- `Graph.topological_sort`: propagate the `IndexError` of `contains_cycle`
on an empty graph, raise `ValueError` when a cycle is reported, otherwise run
`topo_dfs` from every vertex (appending each vertex id to the stack once per
top-level call) and rotate the last id to the front. -/
def Graph.topological_sort (g : Graph) : Except PyErr (List Nat) :=
  match g.contains_cycle with
  | .error e => .error e
  | .ok true => .error .valueError
  | .ok false =>
    let st := g.keys.foldl
      (fun (p : List Nat × List Nat) v => (g.topo_dfs v p.1, p.2 ++ [v])) ([], [])
    .ok (rotateLast st.2)

/-- The `while queue:` loop of `bfs_calculate_depth`: pop `(vertex, depth)`
pairs, track the maximal depth, and enqueue unseen neighbors one level
deeper. -/
def bfsDepthLoop (g : Graph) :
    Nat → List (Nat × Nat) → List Nat → Nat → Nat
  | 0, _, _, maxd => maxd
  | fuel + 1, q, seen, maxd =>
    match q with
    | [] => maxd
    | (v, d) :: qs =>
      let maxd1 := if d > maxd then d else maxd
      let s := (g.neighborIds v).foldl
        (fun (p : List (Nat × Nat) × List Nat) w =>
          if w ∈ p.2 then p else (p.1 ++ [(w, d + 1)], p.2 ++ [w]))
        (qs, seen)
      bfsDepthLoop g fuel s.1 s.2 maxd1

/-- `Graph.bfs_calculate_depth`: the maximal BFS distance from `start_id`
over its reachable set. -/
def Graph.bfs_calculate_depth (g : Graph) (s : Nat) : Nat :=
  bfsDepthLoop g (g.vmap.length + 1) [(s, 0)] [s] 0

/-- `grid[i][j]` with Python's bounds already respected by the callers (the
clients only index existing cells). -/
def cellVal (grid : List (List Nat)) (i j : Nat) : Nat :=
  ((grid.getD i []).getD j 0)

/-- `len(grid[i])`. -/
def rowLen (grid : List (List Nat)) (i : Nat) : Nat :=
  (grid.getD i []).length

/-- The body of the nested grid loop of `timeToRot` for cell `(i, j)`:
add the vertex for every non-zero cell, record rotten (value 2) cells, and
connect to the up and left neighbors when they are non-zero. -/
def rotCell (grid : List (List Nat)) (st : Graph × List Nat) (i j : Nat) :
    Graph × List Nat :=
  let pos := rowLen grid i * i + j
  if cellVal grid i j > 0 then
    let g1 := st.1.add_vertex pos
    let rot1 := if cellVal grid i j = 2 then st.2 ++ [pos] else st.2
    let g2 :=
      if i > 0 ∧ cellVal grid (i - 1) j > 0 then
        g1.add_edge pos (rowLen grid (i - 1) * (i - 1) + j)
      else g1
    let g3 :=
      if j > 0 ∧ cellVal grid i (j - 1) > 0 then
        g2.add_edge pos (rowLen grid i * i + (j - 1))
      else g2
    (g3, rot1)
  else st

/-- The full grid scan of `timeToRot`, row-major as in the Python loops. -/
def rotBuild (grid : List (List Nat)) : Graph × List Nat :=
  (List.range grid.length).foldl
    (fun st i => (List.range (rowLen grid i)).foldl (fun st' j => rotCell grid st' i j) st)
    (mkGraph false, [])

/-- `challenges.timeToRot`: build the undirected grid graph over non-zero
cells, return `-1` when it has more than one connected component, otherwise
the maximum `bfs_calculate_depth` over the rotten cells (0 when none). -/
def timeToRot (grid : List (List Nat)) : Int :=
  let st := rotBuild grid
  if st.1.find_connected_components.length > 1 then -1
  else
    Int.ofNat (st.2.foldl
      (fun maxd pos =>
        let d := st.1.bfs_calculate_depth pos
        if d > maxd then d else maxd) 0)

/-! ### Specification-level notions

The following definitions are not translations of repository functions; they
are the mathematical vocabulary the claims are stated in: walks along the
neighbor relation, well-formedness of a graph state, symmetry of the
neighbor relation, and the mutation API as explicit operation sequences. -/

/-- `ReachN g s n v`: there is a walk of exactly `n` edges from `s` to `v`
along the neighbor relation of `g`. -/
inductive ReachN (g : Graph) (s : Nat) : Nat → Nat → Prop
  | refl : ReachN g s 0 s
  | step {n u v} : ReachN g s n u → v ∈ g.neighborIds u → ReachN g s (n + 1) v

/-- `v` is reachable from `s` in `g` (in any number of steps). -/
def Reaches (g : Graph) (s v : Nat) : Prop := ∃ n, ReachN g s n v

/-- The data-model invariant of §3 of the spec, true of every state the API
builds: vertex ids are unique and every neighbor id is itself a vertex. -/
def WellFormed (g : Graph) : Prop :=
  g.keys.Nodup ∧ ∀ u ∈ g.keys, ∀ v ∈ g.neighborIds u, v ∈ g.keys

/-- The neighbor relation of `g` is symmetric (the invariant of an
undirected graph). -/
def Symm (g : Graph) : Prop :=
  ∀ u ∈ g.keys, ∀ v ∈ g.neighborIds u, u ∈ g.neighborIds v

/-- Every consecutive pair of a path is an edge of `g`. -/
def isChain (g : Graph) (p : List Nat) : Prop :=
  List.Chain' (fun a b => b ∈ g.neighborIds a) p

/-- A list of components is pairwise disjoint. -/
def pairwiseDisjoint (cs : List (List Nat)) : Prop :=
  List.Pairwise (fun c d => ∀ x, x ∈ c → x ∉ d) cs

/-- One mutation of the graph-construction API. -/
inductive GOp : Type
  | addV (i : Nat)
  | addE (i j : Nat)
deriving DecidableEq, Repr

/-- Apply one mutation. -/
def applyOp (g : Graph) : GOp → Graph
  | .addV i => g.add_vertex i
  | .addE i j => g.add_edge i j

/-- Run a sequence of mutations. -/
def runOps (g : Graph) (ops : List GOp) : Graph := ops.foldl applyOp g

/-- `add_vertex` is only ever invoked on ids not already present (so it never
overwrites an existing vertex and its neighbor dictionary). -/
def freshOk (g : Graph) : List GOp → Bool
  | [] => true
  | op :: rest =>
    (match op with
     | .addV i => !g.containsId i
     | .addE _ _ => true) && freshOk (applyOp g op) rest

/-- The length of the path recorded for `x` (0 when none is recorded):
the bookkeeping measure of the `find_shortest_path` loop. -/
def mlen (m : List (Nat × List Nat)) (x : Nat) : Nat :=
  ((alookup m x).getD []).length

/-- What `find_shortest_path` promises about a recorded path `p` for target
`w`: it starts at the source, ends at `w`, follows edges of `g`, and its edge
count `p.length - 1` is exactly the minimal number of edges of any walk from
the source to `w`. -/
def PathSpec (g : Graph) (s w : Nat) (p : List Nat) : Prop :=
  p.head? = some s ∧ p.getLast? = some w ∧ isChain g p ∧
  ReachN g s (p.length - 1) w ∧ ∀ n, ReachN g s n w → p.length - 1 ≤ n

/-! ### Concrete graphs used by individual claims -/

/-- The tree 1–2, 1–3, 3–4 (undirected, connected, acyclic). -/
def gC2tree : Graph := (((mkGraph false).add_edge 1 2).add_edge 1 3).add_edge 3 4

/-- A proper 2-coloring of `gC2tree`, witnessing that it is bipartite. -/
def colorC2 (i : Nat) : Bool := i == 1 || i == 4

/-- The directed acyclic graph with vertices 1, 2 and the single edge 1 → 2. -/
def gC4dag : Graph := (mkGraph true).add_edge 1 2

/-- A directed graph whose only cycle (1 → 3 → 1) leaves vertex 1 through its
second neighbor: neighbors of 1 are [2, 3] in iteration order. -/
def gC7g : Graph := (((mkGraph true).add_edge 1 2).add_edge 1 3).add_edge 3 1

/-- The directed graph 1 → 3, 2 → 3: vertex 3 is reachable from both roots. -/
def gC1dir : Graph := ((mkGraph true).add_edge 1 3).add_edge 2 3

/-- An undirected graph with two components: the edge 1–2 and the isolated
vertex 3. -/
def gC6w : Graph := ((mkGraph false).add_edge 1 2).add_vertex 3

/-- The undirected graph with the single edge 1–2. -/
def gC3w : Graph := (mkGraph false).add_edge 1 2

/-- An undirected three-component graph: the edge 1–2, the isolated
vertex 7, and the edge 3–4. -/
def gC1w : Graph := (((mkGraph false).add_edge 1 2).add_vertex 7).add_edge 3 4

/-! ### Claims settled by direct evaluation -/

/-- C2 (failing input): on the tree 1–2, 1–3, 3–4 — a connected acyclic
undirected graph, hence bipartite, as the explicit 2-coloring `colorC2`
witnesses — `is_bipartite` nevertheless returns `False`: the per-dequeue
alternation of `next_color` assigns vertex 4 the same color as its parent 3.
The claim (and the function's own docstring) requires `True` on every tree. -/
theorem thm_C2_eval :
    gC2tree.is_bipartite = Except.ok false ∧
    (∀ u ∈ gC2tree.keys, ∀ v ∈ gC2tree.neighborIds u, colorC2 u ≠ colorC2 v) :=
  ⟨rfl, by decide⟩

/-- C4 (failing input): the directed acyclic graph with the single edge
1 → 2.  `topological_sort` returns normally with the order [2, 1], although
the edge 1 → 2 requires 1 to appear before 2: the returned list is just the
vertex insertion order with its last element rotated to the front, so the
claimed edge-order property fails on this two-vertex DAG. -/
theorem thm_C4_eval :
    gC4dag.topological_sort = Except.ok [2, 1] ∧
    gC4dag.neighborIds 1 = [2] ∧ gC4dag.neighborIds 2 = [] ∧
    gC4dag.keys = [1, 2] :=
  ⟨rfl, rfl, rfl, rfl⟩

/-- C7: `gC7g` contains the cycle 1 → 3 → 1 (a walk of two edges from 1 back
to 1), and 3 is the second neighbor of 1 (`neighborIds 1 = [2, 3]`), so the
cycle is reachable only through a neighbor that is not first in iteration
order; `contains_cycle` returns `False` because `contains_dfs` recurses into
the first neighbor 2 and returns its negative answer without ever trying the
sibling 3. -/
theorem thm_C7 :
    gC7g.contains_cycle = Except.ok false ∧
    gC7g.neighborIds 1 = [2, 3] ∧
    ReachN gC7g 1 2 1 :=
  ⟨rfl, rfl,
    @ReachN.step gC7g 1 1 3 1 (@ReachN.step gC7g 1 0 1 3 ReachN.refl (by decide))
      (by decide)⟩

/-- C9: `timeToRot` on the three grids of the spec returns 4, −1 and 0. -/
theorem thm_C9 :
    timeToRot [[2, 1, 1], [1, 1, 0], [0, 1, 1]] = 4 ∧
    timeToRot [[2, 1, 1], [0, 1, 1], [1, 0, 1]] = -1 ∧
    timeToRot [[0, 2]] = 0 :=
  ⟨rfl, rfl, rfl⟩

/-- C10: on the empty graph (no vertex ever added, either directedness),
`is_bipartite`, `contains_cycle` and `topological_sort` all raise the
index-out-of-range error of `get_vertices()[0]` instead of returning a
result. -/
theorem thm_C10 :
    (mkGraph true).is_bipartite = Except.error PyErr.indexError ∧
    (mkGraph true).contains_cycle = Except.error PyErr.indexError ∧
    (mkGraph true).topological_sort = Except.error PyErr.indexError ∧
    (mkGraph false).is_bipartite = Except.error PyErr.indexError ∧
    (mkGraph false).contains_cycle = Except.error PyErr.indexError ∧
    (mkGraph false).topological_sort = Except.error PyErr.indexError :=
  ⟨rfl, rfl, rfl, rfl, rfl, rfl⟩

/-- C1 (counterexample): on the directed graph 1 → 3, 2 → 3 the components
returned are [[1, 3], [2, 3]] — vertex 3 belongs to both, so the components
of a directed graph are not pairwise disjoint and the claim fails as stated
for "every graph". -/
theorem thm_C1_cex :
    gC1dir.find_connected_components = [[1, 3], [2, 3]] ∧
    ¬ pairwiseDisjoint gC1dir.find_connected_components := by
  refine ⟨rfl, fun h => ?_⟩
  have h2 : List.Pairwise (fun c d => ∀ x, x ∈ c → x ∉ d) [[1, 3], [2, 3]] := h
  have h3 := (List.pairwise_cons.mp h2).1 [2, 3] (by simp)
  exact h3 3 (by simp) (by simp)

/-- C5 (counterexample): starting from the empty undirected graph, after the
operation sequence `add_edge 1 2; add_vertex 1` the edge (1, 2) was inserted
but the 1 → 2 neighbor entry no longer exists — `add_vertex` overwrote
vertex 1 with a fresh empty-neighbor vertex — so the claimed invariant fails
for sequences that re-add an existing vertex. -/
theorem thm_C5_cex :
    ¬ 2 ∈ (runOps (mkGraph false) [GOp.addE 1 2, GOp.addV 1]).neighborIds 1 :=
  by decide

/-! ### Association-list lemmas -/

/-- Inserting a key that is already present changes nothing. -/
theorem insertKey_mem {xs : List Nat} {x : Nat} (h : x ∈ xs) :
    insertKey xs x = xs := by
  simp [insertKey, h]

/-- The inserted key is present afterwards. -/
theorem mem_insertKey_self (xs : List Nat) (x : Nat) : x ∈ insertKey xs x := by
  unfold insertKey
  split
  · assumption
  · simp

/-- Insertion preserves every existing member. -/
theorem mem_insertKey_mono {xs : List Nat} {y : Nat} (x : Nat) (h : y ∈ xs) :
    y ∈ insertKey xs x := by
  unfold insertKey
  split
  · exact h
  · exact List.mem_append_left _ h

/-- Members of `insertKey xs x` are `x` or members of `xs`. -/
theorem mem_of_mem_insertKey {xs : List Nat} {x y : Nat}
    (h : y ∈ insertKey xs x) : y = x ∨ y ∈ xs := by
  unfold insertKey at h
  split at h
  · exact Or.inr h
  · rcases List.mem_append.mp h with h1 | h1
    · exact Or.inr h1
    · exact Or.inl (List.mem_singleton.mp h1)

/-- Looking up the key just set. -/
theorem alookup_dictSet_self (m : List (Nat × List Nat)) (k : Nat) (v : List Nat) :
    alookup (dictSet m k v) k = some v := by
  induction m with
  | nil => simp [dictSet, alookup]
  | cons p rest ih =>
    obtain ⟨k', v'⟩ := p
    by_cases h : k' = k
    · simp [dictSet, alookup, h]
    · simp [dictSet, alookup, h, ih]

/-- Setting one key leaves every other key's value unchanged. -/
theorem alookup_dictSet_other {k w : Nat} (m : List (Nat × List Nat))
    (v : List Nat) (h : w ≠ k) :
    alookup (dictSet m k v) w = alookup m w := by
  have h' : k ≠ w := Ne.symm h
  induction m with
  | nil => simp [dictSet, alookup, h']
  | cons p rest ih =>
    obtain ⟨k', v'⟩ := p
    by_cases hk : k' = k
    · subst hk
      simp [dictSet, alookup, h']
    · by_cases hw : k' = w
      · subst hw
        simp [dictSet, alookup, hk, Ne.symm h]
      · simp [dictSet, alookup, hk, hw, ih]

/-- `addNbr` at the updated key: the neighbor list gains `v`. -/
theorem alookup_addNbr_self (m : List (Nat × List Nat)) (u v : Nat) :
    alookup (addNbr m u v) u = (alookup m u).map (fun ns => insertKey ns v) := by
  induction m with
  | nil => simp [addNbr, alookup]
  | cons p rest ih =>
    obtain ⟨k, ns⟩ := p
    by_cases h : k = u
    · simp [addNbr, alookup, h]
    · simp [addNbr, alookup, h, ih]

/-- `addNbr` leaves every other key's value unchanged. -/
theorem alookup_addNbr_other {u w : Nat} (m : List (Nat × List Nat)) (v : Nat)
    (h : w ≠ u) :
    alookup (addNbr m u v) w = alookup m w := by
  induction m with
  | nil => simp [addNbr]
  | cons p rest ih =>
    obtain ⟨k, ns⟩ := p
    by_cases hk : k = u
    · subst hk
      simp [addNbr, alookup, Ne.symm h]
    · by_cases hw : k = w
      · subst hw
        simp [addNbr, alookup, hk]
      · simp [addNbr, alookup, hk, hw, ih]

/-- `addNbr` does not change which keys are present. -/
theorem alookup_addNbr_isSome (m : List (Nat × List Nat)) (u v w : Nat) :
    (alookup (addNbr m u v) w).isSome = (alookup m w).isSome := by
  by_cases h : w = u
  · subst h
    rw [alookup_addNbr_self]
    cases alookup m w <;> rfl
  · rw [alookup_addNbr_other m v h]

/-- Recording a neighbor that is already recorded changes nothing. -/
theorem addNbr_noop {m : List (Nat × List Nat)} {u v : Nat}
    (h : v ∈ (alookup m u).getD []) : addNbr m u v = m := by
  induction m with
  | nil => rfl
  | cons p rest ih =>
    obtain ⟨k, ns⟩ := p
    by_cases hk : k = u
    · subst hk
      simp [alookup] at h
      simp [addNbr, insertKey_mem h]
    · simp only [alookup, if_neg hk] at h
      simp [addNbr, hk, ih h]

/-- Existing members of any neighbor list survive an `addNbr`. -/
theorem mem_addNbr_mono {m : List (Nat × List Nat)} {w y : Nat} (u v : Nat)
    (h : y ∈ (alookup m w).getD []) :
    y ∈ (alookup (addNbr m u v) w).getD [] := by
  by_cases hw : w = u
  · subst hw
    rw [alookup_addNbr_self]
    cases hm : alookup m w with
    | none => rw [hm] at h; simp at h
    | some ns =>
      rw [hm] at h
      simpa using mem_insertKey_mono v h
  · rw [alookup_addNbr_other m v hw]
    exact h

/-- The recorded neighbor is present afterwards, provided the vertex exists. -/
theorem mem_addNbr_self {m : List (Nat × List Nat)} {u : Nat} (v : Nat)
    (h : (alookup m u).isSome = true) :
    v ∈ (alookup (addNbr m u v) u).getD [] := by
  rw [alookup_addNbr_self]
  cases hm : alookup m u with
  | none => rw [hm] at h; simp at h
  | some ns => simpa using mem_insertKey_self ns v

/-! ### Lemmas about the construction API -/

/-- A vertex with a recorded neighbor is present in the graph. -/
theorem containsId_of_mem_neighborIds {g : Graph} {w y : Nat}
    (h : y ∈ g.neighborIds w) : g.containsId w = true := by
  unfold Graph.neighborIds at h
  unfold Graph.containsId
  cases hm : alookup g.vmap w with
  | none => rw [hm] at h; simp at h
  | some ns => rfl

/-- `add_vertex` never changes the directedness. -/
theorem directed_add_vertex (g : Graph) (i : Nat) :
    (g.add_vertex i).directed = g.directed := rfl

/-- `add_vertex` makes its id present. -/
theorem containsId_add_vertex_self (g : Graph) (i : Nat) :
    (g.add_vertex i).containsId i = true := by
  unfold Graph.add_vertex Graph.containsId
  simp [alookup_dictSet_self]

/-- `add_vertex` keeps every other id's vertex (and neighbor list) intact. -/
theorem neighborIds_add_vertex_other {g : Graph} {i w : Nat} (h : w ≠ i) :
    (g.add_vertex i).neighborIds w = g.neighborIds w := by
  unfold Graph.add_vertex Graph.neighborIds
  simp [alookup_dictSet_other _ _ h]

/-- `add_vertex` keeps every present id present. -/
theorem containsId_add_vertex_mono {g : Graph} {w : Nat} (i : Nat)
    (h : g.containsId w = true) : (g.add_vertex i).containsId w = true := by
  by_cases hw : w = i
  · subst hw; exact containsId_add_vertex_self g w
  · unfold Graph.add_vertex Graph.containsId
    unfold Graph.containsId at h
    simpa [alookup_dictSet_other _ _ hw] using h

/-- `ensureVertex` never changes the directedness. -/
theorem directed_ensureVertex (g : Graph) (i : Nat) :
    (ensureVertex g i).directed = g.directed := by
  unfold ensureVertex
  split <;> rfl

/-- `recordEdge` never changes the directedness. -/
theorem directed_recordEdge (g : Graph) (u v : Nat) :
    (recordEdge g u v).directed = g.directed := rfl

/-- `add_edge` never changes the directedness. -/
theorem directed_add_edge (g : Graph) (u v : Nat) :
    (g.add_edge u v).directed = g.directed := by
  unfold Graph.add_edge
  split <;>
    simp [directed_recordEdge, directed_ensureVertex]

/-- `ensureVertex` makes its id present. -/
theorem containsId_ensureVertex_self (g : Graph) (i : Nat) :
    (ensureVertex g i).containsId i = true := by
  unfold ensureVertex
  split
  · assumption
  · exact containsId_add_vertex_self g i

/-- `ensureVertex` keeps every present id present. -/
theorem containsId_ensureVertex_mono {g : Graph} {w : Nat} (i : Nat)
    (h : g.containsId w = true) : (ensureVertex g i).containsId w = true := by
  unfold ensureVertex
  split
  · exact h
  · exact containsId_add_vertex_mono i h

/-- `recordEdge` does not change which ids are present. -/
theorem containsId_recordEdge (g : Graph) (u v w : Nat) :
    (recordEdge g u v).containsId w = g.containsId w := by
  unfold recordEdge Graph.containsId
  exact alookup_addNbr_isSome g.vmap u v w

/-- `add_edge` keeps every present id present. -/
theorem containsId_add_edge_mono {g : Graph} {w : Nat} (u v : Nat)
    (h : g.containsId w = true) : (g.add_edge u v).containsId w = true := by
  unfold Graph.add_edge
  have h2 := containsId_ensureVertex_mono v (containsId_ensureVertex_mono u h)
  split
  · rw [containsId_recordEdge]
    exact h2
  · rw [containsId_recordEdge, containsId_recordEdge]
    exact h2

/-- The first endpoint is present after `add_edge`. -/
theorem containsId_add_edge_left (g : Graph) (u v : Nat) :
    (g.add_edge u v).containsId u = true := by
  unfold Graph.add_edge
  have h2 := containsId_ensureVertex_mono v (containsId_ensureVertex_self g u)
  split
  · rw [containsId_recordEdge]
    exact h2
  · rw [containsId_recordEdge, containsId_recordEdge]
    exact h2

/-- The second endpoint is present after `add_edge`. -/
theorem containsId_add_edge_right (g : Graph) (u v : Nat) :
    (g.add_edge u v).containsId v = true := by
  unfold Graph.add_edge
  have h2 := containsId_ensureVertex_self (ensureVertex g u) v
  split
  · rw [containsId_recordEdge]
    exact h2
  · rw [containsId_recordEdge, containsId_recordEdge]
    exact h2

/-- `recordEdge` records the neighbor when the source vertex exists. -/
theorem mem_neighborIds_recordEdge_self {g : Graph} {u : Nat} (v : Nat)
    (h : g.containsId u = true) : v ∈ (recordEdge g u v).neighborIds u :=
  mem_addNbr_self v h

/-- `recordEdge` preserves every recorded neighbor. -/
theorem mem_neighborIds_recordEdge_mono {g : Graph} {w y : Nat} (u v : Nat)
    (h : y ∈ g.neighborIds w) : y ∈ (recordEdge g u v).neighborIds w :=
  mem_addNbr_mono u v h

/-- `ensureVertex` preserves every recorded neighbor. -/
theorem mem_neighborIds_ensureVertex_mono {g : Graph} {w y : Nat} (i : Nat)
    (h : y ∈ g.neighborIds w) : y ∈ (ensureVertex g i).neighborIds w := by
  unfold ensureVertex
  split
  · exact h
  · next hc =>
    have hw : w ≠ i := by
      intro hwi
      subst hwi
      exact hc (containsId_of_mem_neighborIds h)
    rw [neighborIds_add_vertex_other hw]
    exact h

/-- After `add_edge u v` the entry `u → v` is recorded. -/
theorem mem_neighborIds_add_edge_fst (g : Graph) (u v : Nat) :
    v ∈ (g.add_edge u v).neighborIds u := by
  unfold Graph.add_edge
  have hc : (ensureVertex (ensureVertex g u) v).containsId u = true :=
    containsId_ensureVertex_mono v (containsId_ensureVertex_self g u)
  split
  · exact mem_neighborIds_recordEdge_self v hc
  · exact mem_neighborIds_recordEdge_mono v u (mem_neighborIds_recordEdge_self v hc)

/-- After `add_edge u v` on an undirected graph the entry `v → u` is also
recorded. -/
theorem mem_neighborIds_add_edge_snd {g : Graph} (u v : Nat)
    (hd : g.directed = false) : u ∈ (g.add_edge u v).neighborIds v := by
  unfold Graph.add_edge
  have hc : (recordEdge (ensureVertex (ensureVertex g u) v) u v).containsId v = true := by
    rw [containsId_recordEdge]
    exact containsId_ensureVertex_self _ v
  split
  · next h =>
    rw [directed_recordEdge, directed_ensureVertex, directed_ensureVertex, hd] at h
    cases h
  · exact mem_neighborIds_recordEdge_self u hc

/-- `add_edge` preserves every recorded neighbor. -/
theorem mem_neighborIds_add_edge_mono {g : Graph} {w y : Nat} (u v : Nat)
    (h : y ∈ g.neighborIds w) : y ∈ (g.add_edge u v).neighborIds w := by
  unfold Graph.add_edge
  have h2 := mem_neighborIds_ensureVertex_mono v (mem_neighborIds_ensureVertex_mono u h)
  split
  · exact mem_neighborIds_recordEdge_mono u v h2
  · exact mem_neighborIds_recordEdge_mono v u (mem_neighborIds_recordEdge_mono u v h2)

/-- Recording an edge that is already recorded changes nothing. -/
theorem recordEdge_noop {g : Graph} {u v : Nat} (h : v ∈ g.neighborIds u) :
    recordEdge g u v = g := by
  unfold recordEdge
  rw [addNbr_noop h]

/-- `add_edge` on a graph that already has both endpoints reduces to the
one or two `recordEdge` steps. -/
theorem add_edge_eq_of_contains {g : Graph} {u v : Nat}
    (hu : g.containsId u = true) (hv : g.containsId v = true) :
    g.add_edge u v =
      if g.directed then recordEdge g u v
      else recordEdge (recordEdge g u v) v u := by
  unfold Graph.add_edge
  have he1 : ensureVertex g u = g := by
    unfold ensureVertex
    rw [hu]
    simp
  have he : ensureVertex (ensureVertex g u) v = g := by
    rw [he1]
    unfold ensureVertex
    rw [hv]
    simp
  rw [he, directed_recordEdge]

/-- Adding the same edge twice gives the same state as adding it once. -/
theorem add_edge_idem (g : Graph) (u v : Nat) :
    (g.add_edge u v).add_edge u v = g.add_edge u v := by
  rw [add_edge_eq_of_contains (containsId_add_edge_left g u v)
    (containsId_add_edge_right g u v), directed_add_edge]
  have h1 : recordEdge (g.add_edge u v) u v = g.add_edge u v :=
    recordEdge_noop (mem_neighborIds_add_edge_fst g u v)
  cases hd : g.directed with
  | true => simp [h1]
  | false =>
    simp only [Bool.false_eq_true, if_false, h1]
    exact recordEdge_noop (mem_neighborIds_add_edge_snd u v hd)

/-- C8: `add_edge(a, b)` is idempotent — calling it twice in succession
leaves the neighbor dictionaries of `a` and of `b` (indeed the whole graph
state) identical to calling it once, for directed and undirected graphs
alike. -/
theorem thm_C8 (g : Graph) (a b : Nat) :
    ((g.add_edge a b).add_edge a b).neighborIds a = (g.add_edge a b).neighborIds a ∧
    ((g.add_edge a b).add_edge a b).neighborIds b = (g.add_edge a b).neighborIds b ∧
    (g.add_edge a b).add_edge a b = g.add_edge a b := by
  rw [add_edge_idem]
  exact ⟨rfl, rfl, rfl⟩

/-! ### Operation sequences (claim C5) -/

/-- Running a sequence splits at any point. -/
theorem runOps_append (g : Graph) (l1 l2 : List GOp) :
    runOps g (l1 ++ l2) = runOps (runOps g l1) l2 := by
  unfold runOps
  exact List.foldl_append _ _ l1 l2

/-- One operation preserves directedness. -/
theorem directed_applyOp (g : Graph) (op : GOp) :
    (applyOp g op).directed = g.directed := by
  cases op with
  | addV i => exact directed_add_vertex g i
  | addE i j => exact directed_add_edge g i j

/-- A sequence of operations preserves directedness. -/
theorem directed_runOps (g : Graph) (l : List GOp) :
    (runOps g l).directed = g.directed := by
  induction l generalizing g with
  | nil => rfl
  | cons op rest ih =>
    show (runOps (applyOp g op) rest).directed = g.directed
    rw [ih, directed_applyOp]

/-- Unfolding equation of `freshOk` on a cons. -/
theorem freshOk_cons (g : Graph) (op : GOp) (rest : List GOp) :
    freshOk g (op :: rest) =
      ((match op with
        | GOp.addV i => !g.containsId i
        | GOp.addE _ _ => true) && freshOk (applyOp g op) rest) := rfl

/-- A fresh-only operation preserves an existing vertex together with any of
its recorded neighbors. -/
theorem preserveStep {g : Graph} {w y : Nat} (op : GOp)
    (hf : (match op with
           | GOp.addV i => !g.containsId i
           | GOp.addE _ _ => true) = true)
    (hw : g.containsId w = true) (hy : y ∈ g.neighborIds w) :
    (applyOp g op).containsId w = true ∧ y ∈ (applyOp g op).neighborIds w := by
  cases op with
  | addV i =>
    have hne : w ≠ i := by
      intro he
      subst he
      simp only [Bool.not_eq_true'] at hf
      rw [hw] at hf
      cases hf
    refine ⟨?_, ?_⟩
    · show (g.add_vertex i).containsId w = true
      exact containsId_add_vertex_mono i hw
    · show y ∈ (g.add_vertex i).neighborIds w
      rw [neighborIds_add_vertex_other hne]
      exact hy
  | addE i j =>
    exact ⟨containsId_add_edge_mono i j hw, mem_neighborIds_add_edge_mono i j hy⟩

/-- A fresh-only sequence preserves an existing vertex together with any of
its recorded neighbors. -/
theorem preserveRun {w y : Nat} (l : List GOp) (g : Graph)
    (hf : freshOk g l = true)
    (hw : g.containsId w = true) (hy : y ∈ g.neighborIds w) :
    y ∈ (runOps g l).neighborIds w := by
  induction l generalizing g with
  | nil => exact hy
  | cons op rest ih =>
    rw [freshOk_cons, Bool.and_eq_true] at hf
    obtain ⟨hstep, hrest⟩ := hf
    obtain ⟨hw2, hy2⟩ := preserveStep op hstep hw hy
    exact ih (applyOp g op) hrest hw2 hy2

/-- C5 (amended): starting from the empty undirected graph, for every
operation sequence in which `add_vertex` is only ever called on absent ids,
every inserted edge (u, v) has both its `u → v` and its `v → u` neighbor
entries in the state after any later point of the sequence. -/
theorem thm_C5 (l1 l2 : List GOp) (u v : Nat)
    (h : freshOk (mkGraph false) (l1 ++ GOp.addE u v :: l2) = true) :
    v ∈ (runOps (mkGraph false) (l1 ++ GOp.addE u v :: l2)).neighborIds u ∧
    u ∈ (runOps (mkGraph false) (l1 ++ GOp.addE u v :: l2)).neighborIds v := by
  have hsplit : runOps (mkGraph false) (l1 ++ GOp.addE u v :: l2) =
      runOps ((runOps (mkGraph false) l1).add_edge u v) l2 := by
    rw [runOps_append]
    rfl
  have hfk : freshOk (runOps (mkGraph false) l1) (GOp.addE u v :: l2) = true := by
    have : ∀ (a : List GOp) (g : Graph) (b : List GOp),
        freshOk g (a ++ b) = true → freshOk (runOps g a) b = true := by
      intro a
      induction a with
      | nil => intro g b hb; exact hb
      | cons op rest ih =>
        intro g b hb
        rw [List.cons_append, freshOk_cons, Bool.and_eq_true] at hb
        exact ih (applyOp g op) b hb.2
    exact this l1 _ _ h
  rw [freshOk_cons, Bool.and_eq_true] at hfk
  obtain ⟨-, hl2⟩ := hfk
  have hdir : (runOps (mkGraph false) l1).directed = false := directed_runOps _ l1
  have g1 := runOps (mkGraph false) l1
  constructor
  · rw [hsplit]
    exact preserveRun l2 _ hl2 (containsId_add_edge_left _ u v)
      (mem_neighborIds_add_edge_fst _ u v)
  · rw [hsplit]
    exact preserveRun l2 _ hl2 (containsId_add_edge_right _ u v)
      (mem_neighborIds_add_edge_snd u v hdir)

/-- Witness for C5: a concrete fresh-only sequence containing the edge
insertion (1, 2), with both neighbor entries present at the end. -/
theorem thm_C5_witness :
    freshOk (mkGraph false) ([GOp.addV 5] ++ GOp.addE 1 2 :: [GOp.addE 2 3]) = true ∧
    2 ∈ (runOps (mkGraph false) ([GOp.addV 5] ++ GOp.addE 1 2 :: [GOp.addE 2 3])).neighborIds 1 ∧
    1 ∈ (runOps (mkGraph false) ([GOp.addV 5] ++ GOp.addE 1 2 :: [GOp.addE 2 3])).neighborIds 2 :=
  ⟨by decide, (thm_C5 [GOp.addV 5] [GOp.addE 2 3] 1 2 (by decide)).1,
    (thm_C5 [GOp.addV 5] [GOp.addE 2 3] 1 2 (by decide)).2⟩

/-! ### Reachability and lookup lemmas for the BFS proofs -/

/-- A single edge is a walk of one step. -/
theorem reachN_one {g : Graph} {u v : Nat} (h : v ∈ g.neighborIds u) :
    ReachN g u 1 v :=
  ReachN.step ReachN.refl h

/-- Walks compose. -/
theorem reachN_trans {g : Graph} {s u w : Nat} {n m : Nat}
    (h1 : ReachN g s n u) (h2 : ReachN g u m w) : ReachN g s (n + m) w := by
  induction h2 with
  | refl => exact h1
  | step h e ih => exact ReachN.step ih e

/-- Reachability is preserved by one more edge. -/
theorem reaches_step {g : Graph} {s u v : Nat} (h : Reaches g s u)
    (e : v ∈ g.neighborIds u) : Reaches g s v := by
  obtain ⟨n, hn⟩ := h
  exact ⟨n + 1, ReachN.step hn e⟩

/-- A key present in the prefix keeps its value under append. -/
theorem alookup_append_left {α : Type} {m : List (Nat × α)} {k : Nat} {p : α}
    (m2 : List (Nat × α)) (h : alookup m k = some p) :
    alookup (m ++ m2) k = some p := by
  induction m with
  | nil => cases h
  | cons e rest ih =>
    obtain ⟨k', v'⟩ := e
    by_cases hk : k' = k
    · subst hk
      simp only [alookup, if_pos rfl] at h ⊢
      exact h
    · simp only [alookup, if_neg hk] at h ⊢
      exact ih h

/-- A key absent from the prefix looks up in the suffix. -/
theorem alookup_append_right {α : Type} {m : List (Nat × α)} {k : Nat}
    (m2 : List (Nat × α)) (h : alookup m k = none) :
    alookup (m ++ m2) k = alookup m2 k := by
  induction m with
  | nil => rfl
  | cons e rest ih =>
    obtain ⟨k', v'⟩ := e
    by_cases hk : k' = k
    · subst hk
      simp only [alookup, if_pos rfl] at h
      cases h
    · simp only [alookup, if_neg hk] at h ⊢
      exact ih h

/-- Lookup in a one-entry extension. -/
theorem alookup_append_single {α : Type} {m : List (Nat × α)} {k w : Nat}
    (pw : α) (h : alookup m k = none) :
    alookup (m ++ [(w, pw)]) k = if w = k then some pw else none := by
  rw [alookup_append_right _ h]
  rfl

/-- The frontier lemma: with the source recorded and every processed entry
neighbor-closed, any recorded-free vertex reachable in `n` steps forces some
queue element with a strictly shorter walk. -/
theorem fsp_frontier {g : Graph} {s : Nat} {m : List (Nat × List Nat)}
    {Q : List Nat}
    (hsrc : (alookup m s).isSome = true)
    (hclosed : ∀ w, (alookup m w).isSome = true → w ∉ Q →
      ∀ x ∈ g.neighborIds w, (alookup m x).isSome = true) :
    ∀ n w, ReachN g s n w → (alookup m w).isSome = false →
      ∃ z, z ∈ Q ∧ (alookup m z).isSome = true ∧
        ∃ k, ReachN g s k z ∧ k < n := by
  intro n w h
  induction h with
  | refl =>
    intro habs
    rw [hsrc] at habs
    cases habs
  | step hx e ih =>
    intro habs
    rename_i n' x w'
    cases hdx : (alookup m x).isSome with
    | false =>
      obtain ⟨z, hz1, hz2, k, hk1, hk2⟩ := ih hdx
      exact ⟨z, hz1, hz2, k, hk1, Nat.lt_succ_of_lt hk2⟩
    | true =>
      by_cases hxQ : x ∈ Q
      · exact ⟨x, hxQ, hdx, n', hx, Nat.lt_succ_self n'⟩
      · have := hclosed x hdx hxQ w' e
        rw [this] at habs
        cases habs

/-- Presence of a key survives an append. -/
theorem isSome_alookup_append {α : Type} {m : List (Nat × α)} {x : Nat}
    (m2 : List (Nat × α)) (h : (alookup m x).isSome = true) :
    (alookup (m ++ m2) x).isSome = true := by
  obtain ⟨p, hp⟩ := Option.isSome_iff_exists.mp h
  rw [alookup_append_left m2 hp]
  rfl

/-- The recorded length of a key present in the prefix survives an append. -/
theorem mlen_append_of_some {m : List (Nat × List Nat)} {x : Nat}
    {p : List Nat} (m2 : List (Nat × List Nat)) (h : alookup m x = some p) :
    mlen (m ++ m2) x = mlen m x := by
  unfold mlen
  rw [alookup_append_left m2 h, h]

/-- The recorded length is the recorded path's length. -/
theorem mlen_of_some {m : List (Nat × List Nat)} {x : Nat} {p : List Nat}
    (h : alookup m x = some p) : mlen m x = p.length := by
  unfold mlen
  rw [h]
  rfl

/-- A path satisfying `PathSpec` is nonempty. -/
theorem pathSpec_len_pos {g : Graph} {s w : Nat} {p : List Nat}
    (h : PathSpec g s w p) : 1 ≤ p.length := by
  obtain ⟨h1, -, -, -, -⟩ := h
  cases p with
  | nil => cases h1
  | cons a rest => simp

/-- The head survives appending one element to a nonempty list. -/
theorem head_append_single {l : List Nat} {a : Nat} (w : Nat)
    (h : l.head? = some a) : (l ++ [w]).head? = some a := by
  cases l with
  | nil => cases h
  | cons b rest => simpa using h

/-- Unfolding equation of `fspScan` on a cons. -/
theorem fspScan_cons (v w : Nat) (ws q : List Nat) (m : List (Nat × List Nat)) :
    fspScan v (w :: ws) q m =
      if (alookup m w).isSome then fspScan v ws q m
      else fspScan v ws (q ++ [w]) (m ++ [(w, (alookup m v).getD [] ++ [w])]) :=
  rfl

/-- The invariant of the neighbor scan of `find_shortest_path`.  With `v` the
dequeued vertex (recorded path `pv`), scanning any sublist `ws` of `v`'s
neighbors preserves: recorded paths extend-only (1), every recorded path
satisfies `PathSpec` (2), queue members are recorded (3), recorded vertices
off the virtual queue `v :: queue` are neighbor-closed (4), scanned neighbors
end up recorded (5), recorded lengths along the virtual queue are sorted (6)
and spread by at most one (7), and the source stays recorded (8). -/
theorem fspScan_inv (g : Graph) (s v : Nat) (pv : List Nat) :
    ∀ (ws q : List Nat) (m : List (Nat × List Nat)),
    (∀ w ∈ ws, w ∈ g.neighborIds v) →
    alookup m v = some pv →
    (∀ w p, alookup m w = some p → PathSpec g s w p) →
    (∀ x ∈ q, (alookup m x).isSome = true) →
    (∀ w, (alookup m w).isSome = true → w ≠ v → w ∉ q →
      ∀ x ∈ g.neighborIds w, (alookup m x).isSome = true) →
    List.Pairwise (fun a b => mlen m a ≤ mlen m b) (v :: q) →
    (∀ x ∈ v :: q, ∀ y ∈ v :: q, mlen m x ≤ mlen m y + 1) →
    (alookup m s).isSome = true →
    (∀ x p, alookup m x = some p → alookup (fspScan v ws q m).2 x = some p) ∧
    (∀ w p, alookup (fspScan v ws q m).2 w = some p → PathSpec g s w p) ∧
    (∀ x ∈ (fspScan v ws q m).1, (alookup (fspScan v ws q m).2 x).isSome = true) ∧
    (∀ w, (alookup (fspScan v ws q m).2 w).isSome = true → w ≠ v →
      w ∉ (fspScan v ws q m).1 →
      ∀ x ∈ g.neighborIds w, (alookup (fspScan v ws q m).2 x).isSome = true) ∧
    (∀ w ∈ ws, (alookup (fspScan v ws q m).2 w).isSome = true) ∧
    List.Pairwise
      (fun a b => mlen (fspScan v ws q m).2 a ≤ mlen (fspScan v ws q m).2 b)
      (v :: (fspScan v ws q m).1) ∧
    (∀ x ∈ v :: (fspScan v ws q m).1, ∀ y ∈ v :: (fspScan v ws q m).1,
      mlen (fspScan v ws q m).2 x ≤ mlen (fspScan v ws q m).2 y + 1) ∧
    (alookup (fspScan v ws q m).2 s).isSome = true := by
  intro ws
  induction ws with
  | nil =>
    intro q m h1 h2 h3 h4 h5 h6 h7 h8
    exact ⟨fun x p hp => hp, h3, h4, h5,
      fun w hw => absurd hw (List.not_mem_nil w), h6, h7, h8⟩
  | cons w ws ih =>
    intro q m h1 h2 h3 h4 h5 h6 h7 h8
    rw [fspScan_cons]
    by_cases hdw : (alookup m w).isSome = true
    · rw [if_pos hdw]
      obtain ⟨c1, c2, c3, c4, c5, c6, c7, c8⟩ :=
        ih q m (fun x hx => h1 x (List.mem_cons_of_mem w hx)) h2 h3 h4 h5 h6 h7 h8
      refine ⟨c1, c2, c3, c4, ?_, c6, c7, c8⟩
      intro w2 hw2
      rcases List.mem_cons.mp hw2 with he | ht
      · subst he
        obtain ⟨p0, hp0⟩ := Option.isSome_iff_exists.mp hdw
        rw [c1 w2 p0 hp0]
        rfl
      · exact c5 w2 ht
    · rw [if_neg hdw, h2, Option.getD_some]
      have hw_none : alookup m w = none := by
        cases hmw : alookup m w with
        | none => rfl
        | some p0 => rw [hmw] at hdw; exact absurd rfl hdw
      have hwne : w ≠ v := by
        intro he
        subst he
        rw [h2] at hw_none
        cases hw_none
      have hext : ∀ x p, alookup m x = some p →
          alookup (m ++ [(w, pv ++ [w])]) x = some p :=
        fun x p hp => alookup_append_left _ hp
      have hentry : alookup (m ++ [(w, pv ++ [w])]) w = some (pv ++ [w]) := by
        rw [alookup_append_single _ hw_none, if_pos rfl]
      have hPv : PathSpec g s v pv := h3 v pv h2
      have hpvpos : 1 ≤ pv.length := pathSpec_len_pos hPv
      have hwnb : w ∈ g.neighborIds v := h1 w (List.mem_cons_self w ws)
      have hPnew : PathSpec g s w (pv ++ [w]) := by
        obtain ⟨ph, pl, pc, pr, pm⟩ := hPv
        refine ⟨head_append_single w ph, List.getLast?_concat _, ?_, ?_, ?_⟩
        · rw [isChain, List.chain'_append]
          refine ⟨pc, List.chain'_singleton w, ?_⟩
          intro x hx y hy
          rw [Option.mem_def, pl] at hx
          injection hx with hx
          rw [Option.mem_def] at hy
          simp only [List.head?_cons, Option.some.injEq] at hy
          subst hx
          subst hy
          exact hwnb
        · have hl : (pv ++ [w]).length - 1 = (pv.length - 1) + 1 := by
            rw [List.length_append]
            simp
            omega
          rw [hl]
          exact ReachN.step pr hwnb
        · intro n hn
          by_contra hlt
          push_neg at hlt
          have hlen : (pv ++ [w]).length - 1 = pv.length := by
            rw [List.length_append]
            simp
          rw [hlen] at hlt
          have habs : (alookup m w).isSome = false := by rw [hw_none]; rfl
          have hclosedQ : ∀ w2, (alookup m w2).isSome = true → w2 ∉ v :: q →
              ∀ x ∈ g.neighborIds w2, (alookup m x).isSome = true := by
            intro w2 hd hnQ x hx
            rw [List.mem_cons] at hnQ
            push_neg at hnQ
            exact h5 w2 hd hnQ.1 hnQ.2 x hx
          obtain ⟨z, hzQ, hzd, k, hk, hkn⟩ := fsp_frontier h8 hclosedQ n w hn habs
          obtain ⟨pz, hpz⟩ := Option.isSome_iff_exists.mp hzd
          have hPz := h3 z pz hpz
          have hzmin := hPz.2.2.2.2 k hk
          have hzpos := pathSpec_len_pos hPz
          rcases List.mem_cons.mp hzQ with hzv | hzq
          · subst hzv
            rw [h2] at hpz
            injection hpz with he
            subst he
            omega
          · have hle : mlen m v ≤ mlen m z := (List.pairwise_cons.mp h6).1 z hzq
            rw [mlen_of_some h2, mlen_of_some hpz] at hle
            omega
      have h1' : ∀ x ∈ ws, x ∈ g.neighborIds v :=
        fun x hx => h1 x (List.mem_cons_of_mem w hx)
      have h2' : alookup (m ++ [(w, pv ++ [w])]) v = some pv := hext v pv h2
      have h3' : ∀ x p, alookup (m ++ [(w, pv ++ [w])]) x = some p →
          PathSpec g s x p := by
        intro x p hp
        cases hmx : alookup m x with
        | some p0 =>
          rw [hext x p0 hmx] at hp
          injection hp with hp
          subst hp
          exact h3 x p0 hmx
        | none =>
          rw [alookup_append_single _ hmx] at hp
          by_cases hwx : w = x
          · subst hwx
            rw [if_pos rfl] at hp
            injection hp with hp
            subst hp
            exact hPnew
          · rw [if_neg hwx] at hp
            cases hp
      have h4' : ∀ x ∈ q ++ [w],
          (alookup (m ++ [(w, pv ++ [w])]) x).isSome = true := by
        intro x hx
        rcases List.mem_append.mp hx with hq | hw1
        · exact isSome_alookup_append _ (h4 x hq)
        · rw [List.mem_singleton.mp hw1, hentry]
          rfl
      have h5' : ∀ w2, (alookup (m ++ [(w, pv ++ [w])]) w2).isSome = true →
          w2 ≠ v → w2 ∉ q ++ [w] →
          ∀ x ∈ g.neighborIds w2,
            (alookup (m ++ [(w, pv ++ [w])]) x).isSome = true := by
        intro w2 hd2 hne hnq x hx
        cases hmw2 : alookup m w2 with
        | some p0 =>
          have hnq2 : w2 ∉ q := fun hq => hnq (List.mem_append_left _ hq)
          have hd0 : (alookup m w2).isSome = true := by rw [hmw2]; rfl
          exact isSome_alookup_append _ (h5 w2 hd0 hne hnq2 x hx)
        | none =>
          rw [alookup_append_single _ hmw2] at hd2
          by_cases hwx : w = w2
          · subst hwx
            exact absurd (List.mem_append_right _ (List.mem_singleton.mpr rfl)) hnq
          · rw [if_neg hwx] at hd2
            cases hd2
      have hmv' : mlen (m ++ [(w, pv ++ [w])]) v = pv.length := mlen_of_some h2'
      have hmw' : mlen (m ++ [(w, pv ++ [w])]) w = pv.length + 1 := by
        rw [mlen_of_some hentry, List.length_append]
        rfl
      have hmq' : ∀ x ∈ q, mlen (m ++ [(w, pv ++ [w])]) x = mlen m x := by
        intro x hx
        obtain ⟨p0, hp0⟩ := Option.isSome_iff_exists.mp (h4 x hx)
        exact mlen_append_of_some _ hp0
      have hub : ∀ x ∈ v :: (q ++ [w]),
          mlen (m ++ [(w, pv ++ [w])]) x ≤ pv.length + 1 := by
        intro x hx
        rcases List.mem_cons.mp hx with hv1 | hx2
        · subst hv1
          rw [hmv']
          omega
        · rcases List.mem_append.mp hx2 with hq | hw1
          · rw [hmq' x hq]
            have := h7 x (List.mem_cons_of_mem v hq) v (List.mem_cons_self v q)
            rw [mlen_of_some h2] at this
            exact this
          · rw [List.mem_singleton.mp hw1, hmw']
      have hlb : ∀ y ∈ v :: (q ++ [w]),
          pv.length ≤ mlen (m ++ [(w, pv ++ [w])]) y := by
        intro y hy
        rcases List.mem_cons.mp hy with hv1 | hy2
        · subst hv1
          rw [hmv']
        · rcases List.mem_append.mp hy2 with hq | hw1
          · rw [hmq' y hq]
            have := (List.pairwise_cons.mp h6).1 y hq
            rw [mlen_of_some h2] at this
            exact this
          · rw [List.mem_singleton.mp hw1, hmw']
            omega
      have h6' : List.Pairwise
          (fun a b => mlen (m ++ [(w, pv ++ [w])]) a ≤
            mlen (m ++ [(w, pv ++ [w])]) b) (v :: (q ++ [w])) := by
        rw [List.pairwise_cons]
        constructor
        · intro b hb
          rw [hmv']
          exact hlb b (List.mem_cons_of_mem v hb)
        · rw [List.pairwise_append]
          refine ⟨?_, List.pairwise_singleton _ _, ?_⟩
          · have hq6 : List.Pairwise (fun a b => mlen m a ≤ mlen m b) q :=
              (List.pairwise_cons.mp h6).2
            refine List.Pairwise.imp_of_mem ?_ hq6
            intro a b ha hb hab
            rw [hmq' a ha, hmq' b hb]
            exact hab
          · intro a ha b hb
            rw [List.mem_singleton.mp hb, hmw']
            have := hub a (List.mem_cons_of_mem v (List.mem_append_left _ ha))
            exact this
      have h7' : ∀ x ∈ v :: (q ++ [w]), ∀ y ∈ v :: (q ++ [w]),
          mlen (m ++ [(w, pv ++ [w])]) x ≤
            mlen (m ++ [(w, pv ++ [w])]) y + 1 := by
        intro x hx y hy
        have h1x := hub x hx
        have h2y := hlb y hy
        omega
      have h8' : (alookup (m ++ [(w, pv ++ [w])]) s).isSome = true :=
        isSome_alookup_append _ h8
      obtain ⟨c1, c2, c3, c4, c5, c6, c7, c8⟩ :=
        ih (q ++ [w]) (m ++ [(w, pv ++ [w])]) h1' h2' h3' h4' h5' h6' h7' h8'
      refine ⟨?_, c2, c3, c4, ?_, c6, c7, c8⟩
      · intro x p hp
        exact c1 x p (hext x p hp)
      · intro w2 hw2
        rcases List.mem_cons.mp hw2 with he | ht
        · subst he
          rw [c1 w2 (pv ++ [w2]) hentry]
          rfl
        · exact c5 w2 ht

/-- Unfolding equation of `fspLoop` with fuel on a cons queue. -/
theorem fspLoop_succ (g : Graph) (t fuel v : Nat) (qs : List Nat)
    (m : List (Nat × List Nat)) :
    fspLoop g t (fuel + 1) (v :: qs) m =
      if v = t then m
      else fspLoop g t fuel (fspScan v (g.neighborIds v) qs m).1
        (fspScan v (g.neighborIds v) qs m).2 :=
  rfl

/-- Every path recorded by the `find_shortest_path` loop satisfies
`PathSpec`, whatever fuel the loop is given. -/
theorem fspLoop_pathSpec (g : Graph) (s t : Nat) :
    ∀ (fuel : Nat) (q : List Nat) (m : List (Nat × List Nat)),
    (∀ w p, alookup m w = some p → PathSpec g s w p) →
    (∀ x ∈ q, (alookup m x).isSome = true) →
    (∀ w, (alookup m w).isSome = true → w ∉ q →
      ∀ x ∈ g.neighborIds w, (alookup m x).isSome = true) →
    List.Pairwise (fun a b => mlen m a ≤ mlen m b) q →
    (∀ x ∈ q, ∀ y ∈ q, mlen m x ≤ mlen m y + 1) →
    (alookup m s).isSome = true →
    ∀ w p, alookup (fspLoop g t fuel q m) w = some p → PathSpec g s w p := by
  intro fuel
  induction fuel with
  | zero =>
    intro q m h3 h4 h5 h6 h7 h8
    exact h3
  | succ fuel ih =>
    intro q m h3 h4 h5 h6 h7 h8
    cases q with
    | nil => exact h3
    | cons v qs =>
      rw [fspLoop_succ]
      by_cases hvt : v = t
      · rw [if_pos hvt]
        exact h3
      · rw [if_neg hvt]
        obtain ⟨pv, hpv⟩ :=
          Option.isSome_iff_exists.mp (h4 v (List.mem_cons_self v qs))
        obtain ⟨c1, c2, c3, c4, c5, c6, c7, c8⟩ :=
          fspScan_inv g s v pv (g.neighborIds v) qs m (fun x hx => hx) hpv h3
            (fun x hx => h4 x (List.mem_cons_of_mem v hx))
            (fun w hd hne hnq x hx => h5 w hd
              (fun hin => by
                rcases List.mem_cons.mp hin with he | ht
                · exact hne he
                · exact hnq ht) x hx)
            h6 h7 h8
        refine ih _ _ c2 c3 ?_ (List.pairwise_cons.mp c6).2 ?_ c8
        · intro w hd hnq x hx
          by_cases hwv : w = v
          · subst hwv
            exact c5 x hx
          · exact c4 w hd hwv hnq x hx
        · intro x hx y hy
          exact c7 x (List.mem_cons_of_mem v hx) y (List.mem_cons_of_mem v hy)

/-- The initial path map of `find_shortest_path` satisfies the loop
invariant, so every recorded path — in particular a returned one — satisfies
`PathSpec`. -/
theorem fsp_returns_pathSpec {g : Graph} {s t : Nat} {p : List Nat}
    (h : alookup (fspLoop g t (g.vmap.length + 1) [s] [(s, [s])]) t = some p) :
    PathSpec g s t p := by
  refine fspLoop_pathSpec g s t (g.vmap.length + 1) [s] [(s, [s])] ?_ ?_ ?_ ?_ ?_ ?_ t p h
  · intro w p0 hp0
    by_cases hws : s = w
    · subst hws
      simp only [alookup, if_pos rfl] at hp0
      injection hp0 with hp0
      subst hp0
      exact ⟨rfl, rfl, List.chain'_singleton s, ReachN.refl, fun n _ => Nat.zero_le n⟩
    · simp only [alookup, if_neg hws] at hp0
      cases hp0
  · intro x hx
    rw [List.mem_singleton.mp hx]
    simp [alookup]
  · intro w hd hnq x hx
    exfalso
    apply hnq
    cases hmw : alookup [(s, [s])] w with
    | none => rw [hmw] at hd; cases hd
    | some p0 =>
      by_cases hws : s = w
      · rw [hws]
        exact List.mem_singleton.mpr rfl
      · simp only [alookup, if_neg hws] at hmw
        cases hmw
  · exact List.pairwise_singleton _ s
  · intro x hx y hy
    rw [List.mem_singleton.mp hx, List.mem_singleton.mp hy]
    omega
  · simp [alookup]

/-- C3: whenever `find_shortest_path(u, v)` returns a path, that path starts
at `u`, ends at `v`, every consecutive pair is an edge of the graph, and its
length in edges is the minimum number of edges of any walk from `u` to `v`. -/
theorem thm_C3 (g : Graph) (u v : Nat) (p : List Nat)
    (h : g.find_shortest_path u v = Except.ok (some p)) :
    p.head? = some u ∧ p.getLast? = some v ∧ isChain g p ∧
    ReachN g u (p.length - 1) v ∧ ∀ n, ReachN g u n v → p.length - 1 ≤ n := by
  unfold Graph.find_shortest_path at h
  split at h
  · cases h
  · injection h with h
    obtain ⟨h1, h2, h3, h4, h5⟩ := fsp_returns_pathSpec h
    exact ⟨h1, h2, h3, h4, h5⟩

/-- Witness for C3 at a concrete input: on the one-edge graph 1–2 the call
returns the path [1, 2], which starts at 1, ends at 2, follows an edge, and
has minimal length 1. -/
theorem thm_C3_witness :
    gC3w.find_shortest_path 1 2 = Except.ok (some [1, 2]) ∧
    (([1, 2] : List Nat).head? = some 1 ∧
      ([1, 2] : List Nat).getLast? = some 2 ∧
      isChain gC3w [1, 2] ∧
      ReachN gC3w 1 (([1, 2] : List Nat).length - 1) 2 ∧
      ∀ n, ReachN gC3w 1 n 2 → ([1, 2] : List Nat).length - 1 ≤ n) :=
  ⟨rfl, thm_C3 gC3w 1 2 [1, 2] rfl⟩

/-- Every vertex reachable from 1 in `gC6w` is 1 or 2 (vertex 3 is
isolated). -/
theorem gC6w_reach (n x : Nat) (h : ReachN gC6w 1 n x) : x = 1 ∨ x = 2 := by
  induction h with
  | refl => exact Or.inl rfl
  | step h e ih =>
    rcases ih with h1 | h2
    · subst h1
      have he : gC6w.neighborIds 1 = [2] := rfl
      rw [he] at e
      exact Or.inr (List.mem_singleton.mp e)
    · subst h2
      have he : gC6w.neighborIds 2 = [1] := rfl
      rw [he] at e
      exact Or.inl (List.mem_singleton.mp e)

/-- C6: `bfs_traversal` raises the "not in the graph" `KeyError` exactly when
its start id is absent; `find_shortest_path` raises it exactly when the start
or the target id is absent; and when both are present but the target is
unreachable, `find_shortest_path` returns the explicit no-path result `None`
instead of raising. -/
theorem thm_C6 (g : Graph) (s u v : Nat) :
    (g.bfs_traversal s = Except.error PyErr.keyError ↔ g.containsId s = false) ∧
    (g.find_shortest_path u v = Except.error PyErr.keyError ↔
      (g.containsId u = false ∨ g.containsId v = false)) ∧
    (g.containsId u = true → g.containsId v = true → ¬ Reaches g u v →
      g.find_shortest_path u v = Except.ok none) := by
  refine ⟨?_, ?_, ?_⟩
  · unfold Graph.bfs_traversal
    cases hc : g.containsId s <;> simp
  · unfold Graph.find_shortest_path
    cases hcu : g.containsId u <;> cases hcv : g.containsId v <;> simp
  · intro hcu hcv hnr
    unfold Graph.find_shortest_path
    rw [hcu, hcv]
    simp only [Bool.not_true, Bool.or_self, Bool.false_eq_true, if_false]
    cases hres : alookup (fspLoop g v (g.vmap.length + 1) [u] [(u, [u])]) v with
    | none => rfl
    | some p =>
      exfalso
      have hPS := fsp_returns_pathSpec hres
      exact hnr ⟨p.length - 1, hPS.2.2.2.1⟩

/-- Witness for C6 at concrete inputs: in the graph with edge 1–2 and
isolated vertex 3, the absent id 9 makes `bfs_traversal` and
`find_shortest_path` raise the `KeyError`, while the unreachable pair (1, 3)
yields the `None` result without an error. -/
theorem thm_C6_witness :
    gC6w.bfs_traversal 9 = Except.error PyErr.keyError ∧
    gC6w.find_shortest_path 9 3 = Except.error PyErr.keyError ∧
    gC6w.find_shortest_path 1 3 = Except.ok none :=
  ⟨(thm_C6 gC6w 9 1 3).1.mpr (by decide),
    (thm_C6 gC6w 9 9 3).2.1.mpr (Or.inl (by decide)),
    (thm_C6 gC6w 9 1 3).2.2 (by decide) (by decide)
      (fun hr => by
        obtain ⟨n, hn⟩ := hr
        rcases gC6w_reach n 3 hn with h | h <;> exact absurd h (by decide))⟩

/-- Characterization of the BFS neighbor scan: it appends the same fresh ids
`news` to the queue and to the seen set; `news` has no duplicates, consists
of previously unseen elements of the scanned list, and afterwards the whole
scanned list is seen. -/
theorem scanNbrs_spec :
    ∀ (ws q vis : List Nat), ∃ news : List Nat,
    (scanNbrs ws q vis).1 = q ++ news ∧
    (scanNbrs ws q vis).2 = vis ++ news ∧
    news.Nodup ∧
    (∀ x ∈ news, x ∉ vis ∧ x ∈ ws) ∧
    (∀ w ∈ ws, w ∈ vis ++ news) := by
  intro ws
  induction ws with
  | nil =>
    intro q vis
    exact ⟨[], by simp [scanNbrs], by simp [scanNbrs], List.nodup_nil,
      fun x hx => absurd hx (List.not_mem_nil x), fun w hw => absurd hw (List.not_mem_nil w)⟩
  | cons w ws ih =>
    intro q vis
    by_cases hw : w ∈ vis
    · obtain ⟨news, e1, e2, nd, hfr, hcov⟩ := ih q vis
      refine ⟨news, ?_, ?_, nd,
        fun x hx => ⟨(hfr x hx).1, List.mem_cons_of_mem w (hfr x hx).2⟩, ?_⟩
      · rw [scanNbrs, if_pos hw]
        exact e1
      · rw [scanNbrs, if_pos hw]
        exact e2
      · intro x hx
        rcases List.mem_cons.mp hx with he | ht
        · subst he
          exact List.mem_append_left _ hw
        · exact hcov x ht
    · obtain ⟨news, e1, e2, nd, hfr, hcov⟩ := ih (q ++ [w]) (vis ++ [w])
      refine ⟨w :: news, ?_, ?_, ?_, ?_, ?_⟩
      · rw [scanNbrs, if_neg hw, e1, List.append_assoc]
        rfl
      · rw [scanNbrs, if_neg hw, e2, List.append_assoc]
        rfl
      · refine List.nodup_cons.mpr ⟨?_, nd⟩
        intro hwn
        exact (hfr w hwn).1 (List.mem_append_right _ (List.mem_singleton.mpr rfl))
      · intro x hx
        rcases List.mem_cons.mp hx with he | ht
        · subst he
          exact ⟨hw, List.mem_cons_self x ws⟩
        · obtain ⟨hnv, hin⟩ := hfr x ht
          refine ⟨fun hv => hnv (List.mem_append_left _ hv), List.mem_cons_of_mem w hin⟩
      · intro w2 hw2
        rcases List.mem_cons.mp hw2 with he | ht
        · subst he
          exact List.mem_append_right _ (List.mem_cons_self w2 news)
        · have := hcov w2 ht
          rcases List.mem_append.mp this with hvv | hnn
          · rcases List.mem_append.mp hvv with h1 | h1
            · exact List.mem_append_left _ h1
            · rw [List.mem_singleton.mp h1]
              exact List.mem_append_right _ (List.mem_cons_self w news)
          · exact List.mem_append_right _ (List.mem_cons_of_mem w hnn)

/-- The seen set only grows along the BFS loop. -/
theorem bfsLoop_mono (g : Graph) :
    ∀ (fuel : Nat) (q vis : List Nat) (x : Nat),
    x ∈ vis → x ∈ bfsLoop g fuel q vis := by
  intro fuel
  induction fuel with
  | zero => intro q vis x hx; exact hx
  | succ fuel ih =>
    intro q vis x hx
    cases q with
    | nil => exact hx
    | cons v qs =>
      show x ∈ bfsLoop g fuel (scanNbrs (g.neighborIds v) qs vis).1
        (scanNbrs (g.neighborIds v) qs vis).2
      obtain ⟨news, -, e2, -, -, -⟩ := scanNbrs_spec (g.neighborIds v) qs vis
      exact ih _ _ x (by rw [e2]; exact List.mem_append_left _ hx)

/-- Everything the BFS loop ever marks seen is reachable from `s`, provided
the initial seen set and queue are. -/
theorem bfsLoop_sound (g : Graph) (s : Nat) :
    ∀ (fuel : Nat) (q vis : List Nat),
    (∀ x ∈ vis, Reaches g s x) → (∀ x ∈ q, Reaches g s x) →
    ∀ x ∈ bfsLoop g fuel q vis, Reaches g s x := by
  intro fuel
  induction fuel with
  | zero => intro q vis hv _ x hx; exact hv x hx
  | succ fuel ih =>
    intro q vis hv hq
    cases q with
    | nil => exact hv
    | cons v qs =>
      show ∀ x ∈ bfsLoop g fuel (scanNbrs (g.neighborIds v) qs vis).1
        (scanNbrs (g.neighborIds v) qs vis).2, Reaches g s x
      obtain ⟨news, e1, e2, -, hfr, -⟩ := scanNbrs_spec (g.neighborIds v) qs vis
      have hnews : ∀ x ∈ news, Reaches g s x := by
        intro x hx
        exact reaches_step (hq v (List.mem_cons_self v qs)) (hfr x hx).2
      refine ih _ _ ?_ ?_
      · rw [e2]
        intro x hx
        rcases List.mem_append.mp hx with h1 | h1
        · exact hv x h1
        · exact hnews x h1
      · rw [e1]
        intro x hx
        rcases List.mem_append.mp hx with h1 | h1
        · exact hq x (List.mem_cons_of_mem v h1)
        · exact hnews x h1

/-- With enough fuel — measured by unseen vertices plus queue length — the
BFS loop runs to queue exhaustion, so its result is closed under the
neighbor relation. -/
theorem bfsLoop_closed (g : Graph) (hWF : WellFormed g) :
    ∀ (fuel : Nat) (q vis : List Nat),
    vis.Nodup →
    (∀ x ∈ q, x ∈ vis) →
    (∀ x ∈ vis, x ∈ g.keys) →
    (∀ w ∈ vis, w ∉ q → ∀ x ∈ g.neighborIds w, x ∈ vis) →
    (g.keys.length - vis.length) + q.length ≤ fuel →
    ∀ w ∈ bfsLoop g fuel q vis, ∀ x ∈ g.neighborIds w,
      x ∈ bfsLoop g fuel q vis := by
  intro fuel
  induction fuel with
  | zero =>
    intro q vis hnd hqv hvk hcl hfu
    have hq0 : q = [] := by
      cases q with
      | nil => rfl
      | cons a b => simp at hfu
    subst hq0
    intro w hw x hx
    exact hcl w hw (List.not_mem_nil w) x hx
  | succ fuel ih =>
    intro q vis hnd hqv hvk hcl hfu
    cases q with
    | nil =>
      intro w hw x hx
      exact hcl w hw (List.not_mem_nil w) x hx
    | cons v qs =>
      show ∀ w ∈ bfsLoop g fuel (scanNbrs (g.neighborIds v) qs vis).1
        (scanNbrs (g.neighborIds v) qs vis).2,
        ∀ x ∈ g.neighborIds w,
          x ∈ bfsLoop g fuel (scanNbrs (g.neighborIds v) qs vis).1
            (scanNbrs (g.neighborIds v) qs vis).2
      obtain ⟨news, e1, e2, nd, hfr, hcov⟩ := scanNbrs_spec (g.neighborIds v) qs vis
      rw [e1, e2]
      have hvq : v ∈ vis := hqv v (List.mem_cons_self v qs)
      have hnd2 : (vis ++ news).Nodup := by
        rw [List.nodup_append]
        exact ⟨hnd, nd, fun a ha hb => (hfr a hb).1 ha⟩
      have hqv2 : ∀ x ∈ qs ++ news, x ∈ vis ++ news := by
        intro x hx
        rcases List.mem_append.mp hx with h1 | h1
        · exact List.mem_append_left _ (hqv x (List.mem_cons_of_mem v h1))
        · exact List.mem_append_right _ h1
      have hvk2 : ∀ x ∈ vis ++ news, x ∈ g.keys := by
        intro x hx
        rcases List.mem_append.mp hx with h1 | h1
        · exact hvk x h1
        · exact hWF.2 v (hvk v hvq) x (hfr x h1).2
      have hcl2 : ∀ w ∈ vis ++ news, w ∉ qs ++ news →
          ∀ x ∈ g.neighborIds w, x ∈ vis ++ news := by
        intro w hw hwq x hx
        rcases List.mem_append.mp hw with h1 | h1
        · by_cases hwv : w = v
          · subst hwv
            exact hcov x hx
          · have hwq0 : w ∉ v :: qs := by
              intro hin
              rcases List.mem_cons.mp hin with he | ht
              · exact hwv he
              · exact hwq (List.mem_append_left _ ht)
            exact List.mem_append_left _ (hcl w h1 hwq0 x hx)
        · exact absurd (List.mem_append_right qs h1) hwq
      have hlen : (vis ++ news).length ≤ g.keys.length :=
        (List.subperm_of_subset hnd2 hvk2).length_le
      have hfu2 : (g.keys.length - (vis ++ news).length) + (qs ++ news).length ≤ fuel := by
        rw [List.length_append, List.length_append]
        rw [List.length_append] at hlen
        simp only [List.length_cons] at hfu
        omega
      exact ih (qs ++ news) (vis ++ news) hnd2 hqv2 hvk2 hcl2 hfu2

/-- `get_connected` computes exactly the set of vertices reachable from its
start vertex (for a well-formed graph and a start in the graph). -/
theorem get_connected_spec (g : Graph) (hWF : WellFormed g) {s : Nat}
    (hs : s ∈ g.keys) :
    s ∈ g.get_connected s ∧
    (∀ x ∈ g.get_connected s, Reaches g s x) ∧
    (∀ x, Reaches g s x → x ∈ g.get_connected s) := by
  have hkeys : g.keys.length = g.vmap.length := List.length_map _ _
  refine ⟨bfsLoop_mono g _ [s] [s] s (List.mem_singleton.mpr rfl), ?_, ?_⟩
  · refine bfsLoop_sound g s _ [s] [s] ?_ ?_
    · intro x hx
      rw [List.mem_singleton.mp hx]
      exact ⟨0, ReachN.refl⟩
    · intro x hx
      rw [List.mem_singleton.mp hx]
      exact ⟨0, ReachN.refl⟩
  · have hclosed := bfsLoop_closed g hWF (g.vmap.length + 1) [s] [s]
      (List.nodup_singleton s) (fun x hx => hx) ?_ ?_ ?_
    · intro x hx
      obtain ⟨n, hn⟩ := hx
      induction hn with
      | refl => exact bfsLoop_mono g _ [s] [s] s (List.mem_singleton.mpr rfl)
      | step h e ih2 => exact hclosed _ ih2 _ e
    · intro x hx
      rw [List.mem_singleton.mp hx]
      exact hs
    · intro w hw hwq x hx
      exact absurd hw hwq
    · have h1 : 1 ≤ g.keys.length := by
        cases hk : g.keys with
        | nil => rw [hk] at hs; cases hs
        | cons a b => simp
      rw [hkeys] at h1 ⊢
      simp only [List.length_singleton]
      omega

/-- In a well-formed graph every vertex reachable from a vertex of the graph
is a vertex of the graph. -/
theorem reach_in_keys {g : Graph} (hWF : WellFormed g) {s : Nat}
    (hs : s ∈ g.keys) : ∀ {n x : Nat}, ReachN g s n x → x ∈ g.keys := by
  intro n x h
  induction h with
  | refl => exact hs
  | step h e ih => exact hWF.2 _ ih _ e

/-- Reachability is transitive. -/
theorem reaches_trans {g : Graph} {a b c : Nat} (h1 : Reaches g a b)
    (h2 : Reaches g b c) : Reaches g a c := by
  obtain ⟨n, hn⟩ := h1
  obtain ⟨m, hm⟩ := h2
  exact ⟨n + m, reachN_trans hn hm⟩

/-- On a well-formed graph with a symmetric neighbor relation, reachability
is symmetric. -/
theorem reaches_symm {g : Graph} (hWF : WellFormed g) (hSym : Symm g)
    {s x : Nat} (hs : s ∈ g.keys) (h : Reaches g s x) : Reaches g x s := by
  obtain ⟨n, hn⟩ := h
  induction hn with
  | refl => exact ⟨0, ReachN.refl⟩
  | step h e ih =>
    rename_i n' u v
    have hu : u ∈ g.keys := reach_in_keys hWF hs h
    have hvu : u ∈ g.neighborIds v := hSym u hu v e
    exact reaches_trans ⟨1, reachN_one hvu⟩ ih

/-- Membership in a fold of set-insertions. -/
theorem mem_foldl_insertKey :
    ∀ (l V : List Nat) (x : Nat),
    x ∈ l.foldl insertKey V ↔ x ∈ V ∨ x ∈ l := by
  intro l
  induction l with
  | nil =>
    intro V x
    simp
  | cons a l ih =>
    intro V x
    rw [List.foldl_cons, ih]
    constructor
    · intro h
      rcases h with h1 | h1
      · rcases mem_of_mem_insertKey h1 with he | hm
        · exact Or.inr (he ▸ List.mem_cons_self a l)
        · exact Or.inl hm
      · exact Or.inr (List.mem_cons_of_mem a h1)
    · intro h
      rcases h with h1 | h1
      · exact Or.inl (mem_insertKey_mono a h1)
      · rcases List.mem_cons.mp h1 with he | hm
        · exact Or.inl (he ▸ mem_insertKey_self V x)
        · exact Or.inr hm

/-- Unfolding equation of `fccLoop` on a cons. -/
theorem fccLoop_cons (g : Graph) (v : Nat) (vs V : List Nat)
    (cc : List (List Nat)) :
    fccLoop g (v :: vs) V cc =
      if v ∈ V then fccLoop g vs V cc
      else fccLoop g vs ((g.get_connected v).foldl insertKey V)
        (cc ++ [g.get_connected v]) :=
  rfl

/-- The outer loop of `find_connected_components`: processing any remaining
vertex list keeps the accumulated components pairwise disjoint, each equal to
a full reachable set, with the visited set their union, and puts every
remaining vertex into some component. -/
theorem fccLoop_spec (g : Graph) (hWF : WellFormed g) (hSym : Symm g) :
    ∀ (vs V : List Nat) (cc : List (List Nat)),
    (∀ x ∈ vs, x ∈ g.keys) →
    (∀ c ∈ cc, ∀ x ∈ c, x ∈ V) →
    (∀ x ∈ V, ∃ c, c ∈ cc ∧ x ∈ c) →
    (∀ c ∈ cc, ∃ r, r ∈ g.keys ∧ ∀ x, x ∈ c ↔ Reaches g r x) →
    pairwiseDisjoint cc →
    (∀ i ∈ vs, ∃ c, c ∈ fccLoop g vs V cc ∧ i ∈ c) ∧
    (∀ c ∈ fccLoop g vs V cc, ∃ r, r ∈ g.keys ∧ ∀ x, x ∈ c ↔ Reaches g r x) ∧
    pairwiseDisjoint (fccLoop g vs V cc) ∧
    (∀ c ∈ cc, c ∈ fccLoop g vs V cc) := by
  intro vs
  induction vs with
  | nil =>
    intro V cc hvs hccV hVcc hchar hdis
    exact ⟨fun i hi => absurd hi (List.not_mem_nil i), hchar, hdis, fun c hc => hc⟩
  | cons v vs ih =>
    intro V cc hvs hccV hVcc hchar hdis
    rw [fccLoop_cons]
    by_cases hv : v ∈ V
    · rw [if_pos hv]
      obtain ⟨ih1, ih2, ih3, ih4⟩ :=
        ih V cc (fun x hx => hvs x (List.mem_cons_of_mem v hx)) hccV hVcc hchar hdis
      refine ⟨?_, ih2, ih3, ih4⟩
      intro i hi
      rcases List.mem_cons.mp hi with he | ht
      · subst he
        obtain ⟨c, hc, hic⟩ := hVcc i hv
        exact ⟨c, ih4 c hc, hic⟩
      · exact ih1 i ht
    · rw [if_neg hv]
      have hvk : v ∈ g.keys := hvs v (List.mem_cons_self v vs)
      obtain ⟨hvin, hsound, hcomplete⟩ := get_connected_spec g hWF hvk
      have hchar0 : ∀ x, x ∈ g.get_connected v ↔ Reaches g v x :=
        fun x => ⟨fun hx => hsound x hx, fun hx => hcomplete x hx⟩
      have hccV2 : ∀ c ∈ cc ++ [g.get_connected v], ∀ x ∈ c,
          x ∈ (g.get_connected v).foldl insertKey V := by
        intro c hc x hx
        rw [mem_foldl_insertKey]
        rcases List.mem_append.mp hc with h1 | h1
        · exact Or.inl (hccV c h1 x hx)
        · rw [List.mem_singleton.mp h1] at hx
          exact Or.inr hx
      have hVcc2 : ∀ x ∈ (g.get_connected v).foldl insertKey V,
          ∃ c, c ∈ cc ++ [g.get_connected v] ∧ x ∈ c := by
        intro x hx
        rcases (mem_foldl_insertKey _ V x).mp hx with h1 | h1
        · obtain ⟨c, hc, hxc⟩ := hVcc x h1
          exact ⟨c, List.mem_append_left _ hc, hxc⟩
        · exact ⟨g.get_connected v, List.mem_append_right _ (List.mem_singleton.mpr rfl), h1⟩
      have hchar2 : ∀ c ∈ cc ++ [g.get_connected v],
          ∃ r, r ∈ g.keys ∧ ∀ x, x ∈ c ↔ Reaches g r x := by
        intro c hc
        rcases List.mem_append.mp hc with h1 | h1
        · exact hchar c h1
        · rw [List.mem_singleton.mp h1]
          exact ⟨v, hvk, hchar0⟩
      have hdis2 : pairwiseDisjoint (cc ++ [g.get_connected v]) := by
        rw [pairwiseDisjoint, List.pairwise_append]
        refine ⟨hdis, List.pairwise_singleton _ _, ?_⟩
        intro c hc d hd x hxc hxd
        rw [List.mem_singleton.mp hd] at hxd
        obtain ⟨r, hr, hcr⟩ := hchar c hc
        have hrx : Reaches g r x := (hcr x).mp hxc
        have hvx : Reaches g v x := (hchar0 x).mp hxd
        have hxv : Reaches g x v := reaches_symm hWF hSym hvk hvx
        have hrv : Reaches g r v := reaches_trans hrx hxv
        have hvc : v ∈ c := (hcr v).mpr hrv
        exact hv (hccV c hc v hvc)
      obtain ⟨ih1, ih2, ih3, ih4⟩ :=
        ih _ _ (fun x hx => hvs x (List.mem_cons_of_mem v hx)) hccV2 hVcc2 hchar2 hdis2
      refine ⟨?_, ih2, ih3, ?_⟩
      · intro i hi
        rcases List.mem_cons.mp hi with he | ht
        · refine ⟨g.get_connected v, ?_, ?_⟩
          · exact ih4 _ (List.mem_append_right _ (List.mem_singleton.mpr rfl))
          · rw [he]
            exact hvin
        · exact ih1 i ht
      · intro c hc
        exact ih4 c (List.mem_append_left _ hc)

/-- C1 (amended): for every well-formed graph whose neighbor relation is
symmetric — every graph the API builds as undirected — the components
returned by `find_connected_components` cover exactly the vertex ids and are
pairwise disjoint, so every id lies in exactly one component.  (For directed
graphs the covering still holds but disjointness fails, see the
counterexample.) -/
theorem thm_C1 (g : Graph) (hWF : WellFormed g) (hSym : Symm g) :
    (∀ i, i ∈ g.keys ↔ ∃ c, c ∈ g.find_connected_components ∧ i ∈ c) ∧
    pairwiseDisjoint g.find_connected_components := by
  obtain ⟨h1, h2, h3, -⟩ := fccLoop_spec g hWF hSym g.keys [] []
    (fun x hx => hx)
    (fun c hc => absurd hc (List.not_mem_nil c))
    (fun x hx => absurd hx (List.not_mem_nil x))
    (fun c hc => absurd hc (List.not_mem_nil c))
    List.Pairwise.nil
  refine ⟨?_, h3⟩
  intro i
  constructor
  · intro hi
    exact h1 i hi
  · intro hi
    obtain ⟨c, hc, hic⟩ := hi
    obtain ⟨r, hr, hcr⟩ := h2 c hc
    obtain ⟨n, hn⟩ := (hcr i).mp hic
    exact reach_in_keys hWF hr hn

/-- Witness for C1: the undirected graph with components {1, 2}, {7} and
{3, 4} is well-formed and symmetric, so its components partition its ids. -/
theorem thm_C1_witness :
    WellFormed gC1w ∧ Symm gC1w ∧
    ((∀ i, i ∈ gC1w.keys ↔ ∃ c, c ∈ gC1w.find_connected_components ∧ i ∈ c) ∧
      pairwiseDisjoint gC1w.find_connected_components) :=
  ⟨by unfold WellFormed; decide, by unfold Symm; decide,
    thm_C1 gC1w (by unfold WellFormed; decide) (by unfold Symm; decide)⟩
